import Mathlib

/-!
Shallow embedding of the pybdm Block Decomposition Method core
(`src/bdm/encoding.py`, `src/bdm/stages.py`, `src/bdm/bdm.py`) and proofs
about its encoding, partition, lookup and aggregation stages.

Python strings are modelled as `List Char`, numpy integer arrays as a shape
list together with a row-major data list, reference-table floats as exact
rationals, and the BDM value (which involves `log2`) as a real number.
Python exceptions are modelled with `Except`.
-/

/-- Kinds of Python exceptions raised by the embedded code.  `keyError`
carries the missing key (the Python message is
`CTM dataset does not contain object <key>`, which names the key). -/
inductive PyErr where
  | attributeError (msg : String)
  | typeError (msg : String)
  | valueError (msg : String)
  | keyError (key : List Char)
deriving DecidableEq, Repr

deriving instance DecidableEq for Except

/-- A numpy array as consumed by `encode_sequence` (`encoding.py`): the shape,
whether the dtype is an integer dtype, and the flat row-major element list.
`size` is `shape.prod` and `ndim` is `shape.length`, as in numpy. -/
structure PyArray where
  shape : List Nat
  intDtype : Bool
  data : List Int
deriving DecidableEq, Repr

/-- The accumulation loop of `encode_sequence` (`encoding.py` lines 129-133):
`for i, x in enumerate(reversed(seq)): if x > 0: code += x * base**i`. -/
def encodeCode (base : Nat) (seq : List Nat) : Nat :=
  (seq.reverse.enum).foldl
    (fun code p => if 0 < p.2 then code + p.2 * base ^ p.1 else code) 0

/-- `encode_sequence(seq, base)` (`encoding.py` lines 87-133).  The guards are
executed in source order; the empty-size early return comes first, so no check
runs on an empty array.  The range check models
`np.isin(seq, np.arange(base)).all()`.  After the sign check succeeds all
elements are non-negative, so mapping through `Int.toNat` is lossless. -/
def encode_sequence (seq : PyArray) (base : Nat) : Except PyErr Nat :=
  if seq.shape.prod = 0 then .ok 0
  else if seq.shape.length ≠ 1 then
    .error (.attributeError "seq has to be a 1D array")
  else if seq.intDtype = false then
    .error (.typeError "seq has to be of integer dtype")
  else if ¬ (∀ x ∈ seq.data, 0 ≤ x) then
    .error (.valueError "seq has to consist of non-negative integers")
  else if ¬ (∀ x ∈ seq.data, 0 ≤ x ∧ x < (base : Int)) then
    .error (.valueError "There are symbol codes greater than base - 1")
  else .ok (encodeCode base (seq.data.map Int.toNat))

/-- The `while code > 0: code, rest = divmod(code, base)` loop of
`decode_sequence` (`encoding.py` lines 159-162), collecting remainders
most-significant digit first.  For `base ≤ 1` the Python loop diverges
(or divides by zero); every claim here only uses `base ≥ 2`, and the model
returns `[]` on the degenerate bases. -/
def toDigitsBE (base : Nat) (code : Nat) : List Nat :=
  if h : 2 ≤ base ∧ 0 < code then
    toDigitsBE base (code / base) ++ [code % base]
  else []
termination_by code
decreasing_by exact Nat.div_lt_self h.2 (by omega)

/-- `decode_sequence(code, base, min_length)` (`encoding.py` lines 135-167).
The Python guard is `if min_length and n < min_length`; a `min_length` of `0`
is falsy, but then `n < 0` is unsatisfiable anyway, so the model's
`bits.length < m` test is equivalent. -/
def decode_sequence (code : Nat) (base : Nat) (min_length : Option Nat) :
    List Nat :=
  let bits := toDigitsBE base code
  match min_length with
  | none => bits
  | some m =>
      if bits.length < m then List.replicate (m - bits.length) 0 ++ bits
      else bits

/-- `decode_array(code, shape, base)` (`encoding.py` lines 226-250): decode
with `min_length` equal to the element count of `shape`, signal `ValueError`
if the decoded sequence is longer, otherwise reshape (which leaves the
row-major data unchanged; the result is returned as the flat data list). -/
def decode_array (code : Nat) (shape : List Nat) (base : Nat) :
    Except PyErr (List Nat) :=
  let length := shape.prod
  let seq := decode_sequence code base (some length)
  if length < seq.length then
    .error (.valueError "code does not encode array of shape")
  else .ok seq

/-- C9: for every non-negative integer code, base ≥ 2 and requested shape,
`decode_array` signals a `ValueError`-kind failure exactly when the natural
(unpadded) base-`base` representation of the code — `decode_sequence` with no
`min_length` — is longer than the requested element count. -/
theorem c9_decode_array_value_error (code base : Nat) (shape : List Nat)
    (h : 2 ≤ base) :
    (∃ e, decode_array code shape base = .error e) ↔
      shape.prod < (decode_sequence code base none).length := by
  clear h
  unfold decode_array decode_sequence
  by_cases hlt : (toDigitsBE base code).length < shape.prod
  · simp only [if_pos hlt]
    have hlen : (List.replicate (shape.prod - (toDigitsBE base code).length)
        (0 : Nat) ++ toDigitsBE base code).length = shape.prod := by
      simp [List.length_append, List.length_replicate]
      omega
    simp [hlen]
    omega
  · simp only [if_neg hlt]
    by_cases herr : shape.prod < (toDigitsBE base code).length
    · simp [herr]
    · simp [herr]

/-- Witness for C9 at `code = 4`, `base = 2`, `shape = (2,)`: the natural
representation `[1, 0, 0]` has length 3 > 2, so decoding fails. -/
theorem c9_decode_array_value_error_witness :
    2 ≤ 2 ∧ ((∃ e, decode_array 4 [2] 2 = .error e) ↔
      [2].prod < (decode_sequence 4 2 none).length) :=
  ⟨by decide, c9_decode_array_value_error 4 2 [2] (by decide)⟩

/-- C10: every empty array encodes to `.ok 0` with no failure, whatever its
dimensionality (`shape`) and dtype: the `size == 0` early return in
`encode_sequence` precedes the 1-D, dtype, sign and range checks. -/
theorem c10_encode_sequence_empty (shape : List Nat) (intDtype : Bool)
    (base : Nat) (h : shape.prod = 0) :
    encode_sequence ⟨shape, intDtype, []⟩ base = .ok 0 := by
  unfold encode_sequence
  simp [h]

/-- Witness for C10 at a 2-dimensional empty array of non-integer dtype:
both the dimensionality check and the dtype check would fail, yet the
encoder returns 0. -/
theorem c10_encode_sequence_empty_witness :
    ([2, 0] : List Nat).prod = 0 ∧
      encode_sequence ⟨[2, 0], false, []⟩ 7 = .ok 0 :=
  ⟨by decide, c10_encode_sequence_empty [2, 0] false 7 (by decide)⟩

/-- The indexed accumulation loop of `encodeCode` computes the positional
value of a little-endian digit list, shifted by the starting index. -/
theorem encodeCode_enumFrom (base : Nat) (l : List Nat) : ∀ (k acc : Nat),
    (l.enumFrom k).foldl
      (fun code p => if 0 < p.2 then code + p.2 * base ^ p.1 else code) acc
      = acc + base ^ k * Nat.ofDigits base l := by
  induction l with
  | nil => intro k acc; simp [Nat.ofDigits_nil]
  | cons x t ih =>
      intro k acc
      simp only [List.enumFrom, List.foldl_cons, Nat.ofDigits_cons]
      rw [ih]
      by_cases hx : 0 < x
      · rw [if_pos hx]
        ring
      · rw [if_neg hx]
        have hx0 : x = 0 := by omega
        subst hx0
        ring

/-- `encodeCode` is the positional value of the sequence read as base-`base`
digits with the most significant digit first. -/
theorem encodeCode_eq_ofDigits (base : Nat) (seq : List Nat) :
    encodeCode base seq = Nat.ofDigits base seq.reverse := by
  unfold encodeCode
  rw [show seq.reverse.enum = seq.reverse.enumFrom 0 from rfl,
    encodeCode_enumFrom]
  simp

/-- The divmod loop of `decode_sequence` produces the reversed digit
expansion of the code. -/
theorem toDigitsBE_eq_digits_reverse (base : Nat) (h : 2 ≤ base) :
    ∀ code, toDigitsBE base code = (Nat.digits base code).reverse := by
  intro code
  induction code using Nat.strong_induction_on with
  | _ code ih =>
    rw [toDigitsBE]
    by_cases hc : 0 < code
    · rw [dif_pos ⟨h, hc⟩, ih (code / base) (Nat.div_lt_self hc (by omega)),
        Nat.digits_def' (show 1 < base by omega) hc]
      simp
    · have hc0 : code = 0 := by omega
      subst hc0
      simp


/-- The positional value of a run of zero digits is zero. -/
theorem ofDigits_replicate_zero (base : Nat) :
    ∀ n, Nat.ofDigits base (List.replicate n (0 : Nat)) = 0 := by
  intro n
  induction n with
  | zero => simp [Nat.ofDigits_nil]
  | succ n ihn =>
      rw [List.replicate_succ, Nat.ofDigits_cons, ihn]
      simp

/-- The first element surviving `dropWhile` falsifies the predicate. -/
theorem dropWhile_head_false {α : Type} (p : α → Bool) :
    ∀ (l : List α) (x : α) (s : List α),
      List.dropWhile p l = x :: s → p x = false := by
  intro l
  induction l with
  | nil => intro x s h; simp [List.dropWhile] at h
  | cons y ys ih =>
      intro x s h
      rw [List.dropWhile_cons] at h
      by_cases hy : p y
      · rw [if_pos hy] at h
        exact ih x s h
      · rw [if_neg hy] at h
        injection h with h1 h2
        subst h1
        simpa using hy

/-- A list of symbols all below the base decodes back from its positional
value once left-padded to its original length: the round-trip core of C2. -/
theorem decode_ofDigits_reverse (a : List Nat) (base : Nat) (h2 : 2 ≤ base)
    (hlt : ∀ x ∈ a, x < base) :
    decode_sequence (Nat.ofDigits base a.reverse) base (some a.length) = a := by
  obtain ⟨z, t, hsplit, hzrep, hhead⟩ :
      ∃ z t, z ++ t = a ∧ z = List.replicate z.length 0 ∧
        (t = [] ∨ ∃ x s, t = x :: s ∧ x ≠ 0) := by
    refine ⟨a.takeWhile (fun x => x == 0), a.dropWhile (fun x => x == 0),
      List.takeWhile_append_dropWhile _ _, ?_, ?_⟩
    · exact List.eq_replicate_iff.mpr ⟨rfl, fun b hb => by
        simpa using List.mem_takeWhile_imp hb⟩
    · cases hd : a.dropWhile (fun x => x == 0) with
      | nil => exact Or.inl rfl
      | cons x s =>
          refine Or.inr ⟨x, s, rfl, ?_⟩
          have := dropWhile_head_false (fun y => y == 0) a x s hd
          simpa using this
  subst hsplit
  have hrev : (z ++ t).reverse = t.reverse ++ List.replicate z.length 0 := by
    rw [List.reverse_append]
    congr 1
    conv_lhs => rw [hzrep]
    exact List.reverse_replicate _ _
  have hof : Nat.ofDigits base (z ++ t).reverse = Nat.ofDigits base t.reverse := by
    rw [hrev, Nat.ofDigits_append, ofDigits_replicate_zero]
    simp
  rcases hhead with htnil | ⟨x, s, hxs, hx0⟩
  · subst htnil
    have hczero : Nat.ofDigits base (z ++ ([] : List Nat)).reverse = 0 := by
      rw [hof]
      simp [Nat.ofDigits_nil]
    rw [hczero]
    have hbits : toDigitsBE base 0 = [] := by rw [toDigitsBE]; simp
    simp only [decode_sequence, hbits, List.length_nil, List.append_nil,
      Nat.sub_zero]
    by_cases hA : 0 < z.length
    · rw [if_pos (by simpa using hA)]
      simpa using hzrep.symm
    · rw [if_neg (by simpa using hA)]
      have : z = [] := List.length_eq_zero.mp (by omega)
      simp [this]
  · subst hxs
    have hdig : Nat.digits base (Nat.ofDigits base (x :: s).reverse)
        = (x :: s).reverse := by
      refine Nat.digits_ofDigits base (by omega) _ ?_ ?_
      · intro l hl
        apply hlt
        rw [List.mem_reverse] at hl
        exact List.mem_append.mpr (Or.inr hl)
      · intro h
        rw [List.getLast_reverse]
        simpa using hx0
    simp only [decode_sequence]
    rw [hof, toDigitsBE_eq_digits_reverse base h2, hdig, List.reverse_reverse]
    by_cases hshort : (x :: s).length < (z ++ x :: s).length
    · rw [if_pos hshort]
      have hzl : (z ++ x :: s).length - (x :: s).length = z.length := by
        simp
      rw [hzl]
      conv_rhs => rw [hzrep]
    · rw [if_neg hshort]
      have hz0 : z = [] := by
        refine List.length_eq_zero.mp ?_
        rw [List.length_append] at hshort
        omega
      rw [hz0, List.nil_append]

/-- C2: for every 1-D integer array with symbols in `[0, base)` and `base ≥ 2`,
encoding succeeds with the positional code and decoding that code with
`min_length` equal to the array size returns exactly the original array. -/
theorem c2_encode_decode_round_trip (a : List Nat) (base : Nat)
    (h2 : 2 ≤ base) (hlt : ∀ x ∈ a, x < base) :
    encode_sequence ⟨[a.length], true, a.map Int.ofNat⟩ base
        = .ok (encodeCode base a) ∧
      decode_sequence (encodeCode base a) base (some a.length) = a := by
  constructor
  · unfold encode_sequence
    by_cases hnil : a = []
    · subst hnil
      simp [encodeCode]
    · have hlen : a.length ≠ 0 := by
        simpa using fun h => hnil (List.length_eq_zero.mp h)
      rw [if_neg (by simpa using hlen)]
      rw [if_neg (by simp)]
      rw [if_neg (by simp)]
      rw [if_neg (by
        simp only [not_not]
        intro y hy
        simp only [List.mem_map] at hy
        obtain ⟨u, hu, rfl⟩ := hy
        simp)]
      rw [if_neg (by
        simp only [not_not]
        intro y hy
        simp only [List.mem_map] at hy
        obtain ⟨u, hu, rfl⟩ := hy
        refine ⟨by simp, ?_⟩
        have := hlt u hu
        simp only [Int.ofNat_eq_coe]
        exact_mod_cast this)]
      congr 1
      congr 1
      rw [List.map_map]
      have : (Int.toNat ∘ Int.ofNat) = id := by
        funext u
        simp
      rw [this, List.map_id]
  · rw [encodeCode_eq_ofDigits]
    exact decode_ofDigits_reverse a base h2 hlt

/-- Witness for C2 at `a = [1, 0, 1]`, `base = 2`. -/
theorem c2_encode_decode_round_trip_witness :
    (2 ≤ 2 ∧ ∀ x ∈ [1, 0, 1], x < 2) ∧
      (encode_sequence ⟨[([1, 0, 1] : List Nat).length], true,
          ([1, 0, 1] : List Nat).map Int.ofNat⟩ 2
        = .ok (encodeCode 2 [1, 0, 1]) ∧
      decode_sequence (encodeCode 2 [1, 0, 1]) 2
          (some ([1, 0, 1] : List Nat).length) = [1, 0, 1]) :=
  ⟨⟨by decide, by decide⟩,
    c2_encode_decode_round_trip [1, 0, 1] 2 (by decide) (by decide)⟩

/-- A numpy integer array for the partition, string and lookup stages: shape
plus flat row-major data.  (`encode_sequence` additionally needs dtype
information and has its own model `PyArray` above.) -/
structure NDArray where
  shape : List Nat
  data : List Nat
deriving DecidableEq, Repr

/-- Decimal rendering of one symbol, as `arr.astype(str)` produces. -/
def natToChars (n : Nat) : List Char := (Nat.repr n).toList

/-- Python `sep.join(rows)` for the block separator `sep = '-'`
(the `sep.join(np.ravel(x))` step of `string_from_array`). -/
def joinSep (rows : List (List Char)) : List Char :=
  match rows with
  | [] => []
  | r :: rs => r ++ rs.flatMap (fun q => '-' :: q)

/-- Python `x.split('-')` (used by `array_from_string`): splits at every
separator occurrence, keeping empty pieces, always at least one piece. -/
def splitSep : List Char → List (List Char)
  | [] => [[]]
  | c :: t =>
      if c = '-' then [] :: splitSep t
      else
        match splitSep t with
        | [] => [[c]]
        | h :: r => (c :: h) :: r

/-- `string_from_array(arr, sep='-')` (`encoding.py` lines 61-85):
`np.apply_along_axis(''.join, arr.ndim - 1, arr.astype(str))` renders each
run along the last axis as the concatenated decimal digits of its entries,
`np.ravel` flattens all remaining axes, and the runs are joined with the
separator.  The run count is the product of all but the last dimension, so a
1-D array yields a single run and hence no separator; for `ndim ≥ 3` all
leading axes are flattened into one run sequence. -/
def string_from_array (a : NDArray) : List Char :=
  let w := a.shape.getLastD 1
  let rows := (List.range ((a.shape.dropLast).prod)).map
    (fun i => ((a.data.drop (i * w)).take w).flatMap natToChars)
  joinSep rows

/-- `astype(int)` on a single decimal digit character. -/
def charToNat (c : Char) : Nat := c.toNat - 48

/-- `array_from_string(x, shape=None, cast_to=int, sep='-')` (`encoding.py`
lines 19-59): if the separator occurs, split on it and build the 2-D array
whose rows are the pieces character lists; otherwise build the 1-D array of
the characters.  Characters are cast to integers digit-wise.  The model
assumes the pieces are rectangular, as they are for every serialized array
(numpy would otherwise build an object array); the `arr.ndim == 0` reshape
in the source is unreachable for string input since `list(x)` is always
1-D. -/
def array_from_string (x : List Char) : NDArray :=
  if x.contains '-' then
    let parts := splitSep x
    { shape := [parts.length, (parts.headD []).length],
      data := parts.flatMap (fun r => r.map charToNat) }
  else
    { shape := [x.length], data := x.map charToNat }

/-- A single digit renders as one character that casts back and is not the
separator. -/
theorem natToChars_digit (n : Nat) (h : n < 10) :
    (natToChars n).map charToNat = [n] ∧ (natToChars n).length = 1 ∧
      ('-' ∈ natToChars n → False) := by
  interval_cases n <;> exact ⟨by decide, by decide, by decide⟩

/-- A run of digits below 10 renders reversibly: the characters cast back to
the original symbols, one character per symbol, and no separator occurs. -/
theorem flatMap_natToChars (row : List Nat) (h : ∀ x ∈ row, x < 10) :
    (row.flatMap natToChars).map charToNat = row ∧
      (row.flatMap natToChars).length = row.length ∧
      ('-' ∈ row.flatMap natToChars → False) := by
  induction row with
  | nil => exact ⟨rfl, rfl, by simp⟩
  | cons x t ih =>
      obtain ⟨ih1, ih2, ih3⟩ := ih (fun y hy => h y (List.mem_cons_of_mem _ hy))
      obtain ⟨hx1, hx2, hx3⟩ := natToChars_digit x (h x (List.mem_cons_self _ _))
      refine ⟨?_, ?_, ?_⟩
      · rw [List.flatMap_cons, List.map_append, hx1, ih1]
        rfl
      · rw [List.flatMap_cons, List.length_append, hx2, ih2, List.length_cons]
        omega
      · rw [List.flatMap_cons]
        intro hmem
        rcases List.mem_append.mp hmem with hmem | hmem
        · exact hx3 hmem
        · exact ih3 hmem

/-- A separator-free string splits into itself. -/
theorem splitSep_no_sep (s : List Char) (h : '-' ∈ s → False) :
    splitSep s = [s] := by
  induction s with
  | nil => rfl
  | cons c t ih =>
      have hc : c ≠ '-' := fun hc => h (hc ▸ List.mem_cons_self _ _)
      have ht := ih (fun hm => h (List.mem_cons_of_mem _ hm))
      rw [splitSep, if_neg hc, ht]

/-- Splitting separates the first separator-free piece. -/
theorem splitSep_append_sep (r w : List Char) (h : '-' ∈ r → False) :
    splitSep (r ++ '-' :: w) = r :: splitSep w := by
  induction r with
  | nil => simp [splitSep]
  | cons c t ih =>
      have hc : c ≠ '-' := fun hc => h (hc ▸ List.mem_cons_self _ _)
      have ht := ih (fun hm => h (List.mem_cons_of_mem _ hm))
      rw [List.cons_append, splitSep, if_neg hc, ht]

/-- `split` undoes `join` on a nonempty list of separator-free pieces. -/
theorem splitSep_joinSep (rows : List (List Char)) (hne : rows ≠ [])
    (h : ∀ r ∈ rows, '-' ∈ r → False) : splitSep (joinSep rows) = rows := by
  induction rows with
  | nil => exact absurd rfl hne
  | cons r rs ih =>
      cases rs with
      | nil =>
          rw [joinSep, List.flatMap_nil, List.append_nil]
          exact splitSep_no_sep r (h r (List.mem_cons_self _ _))
      | cons q qs =>
          have hjoin : joinSep (r :: q :: qs) = r ++ '-' :: joinSep (q :: qs) := by
            rw [joinSep, joinSep, List.flatMap_cons]
            rfl
          rw [hjoin,
            splitSep_append_sep r _ (h r (List.mem_cons_self _ _)),
            ih (by simp) (fun p hp => h p (List.mem_cons_of_mem _ hp))]

/-- Reassembling consecutive width-`c` chunks restores the data list. -/
theorem chunks_concat : ∀ (r : Nat) (c : Nat) (data : List Nat),
    data.length = r * c →
    (List.range r).flatMap (fun i => (data.drop (i * c)).take c) = data := by
  intro r
  induction r with
  | zero =>
      intro c data h
      simp only [Nat.zero_mul] at h
      simp [List.eq_nil_of_length_eq_zero h]
  | succ r ih =>
      intro c data h
      rw [List.range_succ_eq_map, List.flatMap_cons, List.flatMap_map]
      have hdrop : ∀ i : Nat, data.drop (Nat.succ i * c)
          = (data.drop c).drop (i * c) := by
        intro i
        rw [List.drop_drop]
        congr 1
        rw [Nat.succ_mul]
        omega
      have hlen : (data.drop c).length = r * c := by
        rw [List.length_drop, h, Nat.succ_mul]
        omega
      calc (data.drop (0 * c)).take c
            ++ (List.range r).flatMap (fun i => (data.drop (Nat.succ i * c)).take c)
      _ = data.take c ++ (List.range r).flatMap
            (fun i => ((data.drop c).drop (i * c)).take c) := by
            rw [Nat.zero_mul, List.drop_zero]
            congr 1
            refine List.flatMap_congr ?_
            intro i _
            rw [hdrop i]
      _ = data.take c ++ data.drop c := by rw [ih c (data.drop c) hlen]
      _ = data := List.take_append_drop c data

/-- C8 counterexample: the separator-joined serialization flattens all axes
before the last one, so a 3-dimensional array comes back as a 2-D array of
shape `(4, 1)`, and a 2-D array with a single row serializes without any
separator and comes back 1-D. -/
theorem c8_string_round_trip_counterexample :
    array_from_string (string_from_array ⟨[2, 2, 1], [0, 1, 1, 0]⟩)
        ≠ ⟨[2, 2, 1], [0, 1, 1, 0]⟩ ∧
      array_from_string (string_from_array ⟨[1, 2], [1, 0]⟩)
        ≠ ⟨[1, 2], [1, 0]⟩ := by
  decide

/-- C8 (amended): the canonical string serialization round-trips through
`array_from_string` for nonempty 1-D arrays and for 2-D arrays with at least
two rows and at least one column, all symbols single-digit; for a single-row
2-D array or for `ndim ≥ 3` the reconstructed shape differs (see the
counterexample). -/
theorem c8_string_round_trip_amended :
    (∀ (l : List Nat), l ≠ [] → (∀ x ∈ l, x < 10) →
      array_from_string (string_from_array ⟨[l.length], l⟩)
        = ⟨[l.length], l⟩) ∧
    (∀ (r c : Nat) (data : List Nat), 2 ≤ r → 1 ≤ c →
      data.length = r * c → (∀ x ∈ data, x < 10) →
      array_from_string (string_from_array ⟨[r, c], data⟩) = ⟨[r, c], data⟩) := by
  constructor
  · intro l hne hlt
    obtain ⟨hmap, hlen, hsep⟩ := flatMap_natToChars l hlt
    have hrow : string_from_array ⟨[l.length], l⟩ = l.flatMap natToChars := by
      have h1 : List.range 1 = [0] := rfl
      simp [string_from_array, joinSep, h1, List.take_length]
    rw [hrow]
    have hcont : (l.flatMap natToChars).contains '-' = false := by
      rw [List.contains_eq_any_beq]
      rw [List.any_eq_false]
      intro c hc hbeq
      obtain rfl := eq_of_beq hbeq
      exact hsep hc
    unfold array_from_string
    rw [hcont]
    simp only [Bool.false_eq_true, if_false]
    rw [hmap, hlen]
  · intro r c data hr hc hlen hlt
    -- the rows of the serialization
    have hrowlen : ∀ i, i < r → ((data.drop (i * c)).take c).length = c := by
      intro i hi
      rw [List.length_take, List.length_drop, hlen]
      have h1 : (i + 1) * c ≤ r * c := Nat.mul_le_mul_right c hi
      have h2 : (i + 1) * c = i * c + c := by ring
      omega
    have hrowmem : ∀ i x, x ∈ (data.drop (i * c)).take c → x < 10 := by
      intro i x hx
      exact hlt x ((List.take_subset _ _).trans (List.drop_subset _ _) hx)
    have hstring : string_from_array ⟨[r, c], data⟩
        = joinSep ((List.range r).map
            (fun i => ((data.drop (i * c)).take c).flatMap natToChars)) := by
      simp [string_from_array]
    obtain ⟨r0, hr0⟩ : ∃ r0, r = r0 + 2 := ⟨r - 2, by omega⟩
    have hcontains : (string_from_array ⟨[r, c], data⟩).contains '-' = true := by
      rw [hstring, hr0]
      rw [List.range_succ_eq_map, List.range_succ_eq_map]
      simp only [List.map_cons, joinSep, List.flatMap_cons]
      rw [List.contains_eq_any_beq, List.any_eq_true]
      exact ⟨'-', by simp, by simp⟩
    have hrows_nosep : ∀ row ∈ (List.range r).map
        (fun i => ((data.drop (i * c)).take c).flatMap natToChars),
        '-' ∈ row → False := by
      intro row hrow
      simp only [List.mem_map, List.mem_range] at hrow
      obtain ⟨i, hi, rfl⟩ := hrow
      exact (flatMap_natToChars _ (hrowmem i)).2.2
    have hsplit : splitSep (string_from_array ⟨[r, c], data⟩)
        = (List.range r).map
            (fun i => ((data.drop (i * c)).take c).flatMap natToChars) := by
      rw [hstring]
      refine splitSep_joinSep _ ?_ hrows_nosep
      rw [hr0]
      simp [List.range_succ_eq_map]
    unfold array_from_string
    rw [hcontains]
    simp only [if_true]
    rw [hsplit]
    have hrlen : ((List.range r).map
        (fun i => ((data.drop (i * c)).take c).flatMap natToChars)).length = r := by
      simp
    have hhead : (((List.range r).map
        (fun i => ((data.drop (i * c)).take c).flatMap natToChars)).headD []).length
        = c := by
      rw [hr0]
      rw [List.range_succ_eq_map, List.range_succ_eq_map]
      simp only [List.map_cons, List.headD_cons]
      rw [(flatMap_natToChars _ (hrowmem 0)).2.1]
      exact hrowlen 0 (by omega)
    have hdata : ((List.range r).map
        (fun i => ((data.drop (i * c)).take c).flatMap natToChars)).flatMap
          (fun row => row.map charToNat) = data := by
      rw [List.flatMap_map]
      have : ∀ i ∈ List.range r,
          ((((data.drop (i * c)).take c).flatMap natToChars).map charToNat)
            = (data.drop (i * c)).take c := by
        intro i hi
        exact (flatMap_natToChars _ (hrowmem i)).1
      rw [List.flatMap_congr this]
      exact chunks_concat r c data hlen
    rw [hrlen, hhead, hdata]

/-- Witness for C8 (amended) at the 1-D array `[1, 0]` and the 2-D array
`[[1, 0], [0, 1]]`. -/
theorem c8_string_round_trip_amended_witness :
    (([1, 0] : List Nat) ≠ [] ∧ ∀ x ∈ ([1, 0] : List Nat), x < 10) ∧
      array_from_string (string_from_array ⟨[([1, 0] : List Nat).length], [1, 0]⟩)
        = ⟨[([1, 0] : List Nat).length], [1, 0]⟩ ∧
      array_from_string (string_from_array ⟨[2, 2], [1, 0, 0, 1]⟩)
        = ⟨[2, 2], [1, 0, 0, 1]⟩ :=
  ⟨⟨by decide, by decide⟩,
    c8_string_round_trip_amended.1 [1, 0] (by decide) (by decide),
    c8_string_round_trip_amended.2 2 2 [1, 0, 0, 1] (by decide) (by decide)
      (by decide) (by decide)⟩

/-- The reference CTM table: an externally supplied read-only mapping from
canonical string keys to complexity values (floats, modelled as exact
rationals).  Absent keys map to `none`, present keys to `some value`. -/
abbrev CtmTable := List Char → Option Rat

/-- Python `key.lstrip('0')`. -/
def lstripZeros (key : List Char) : List Char :=
  key.dropWhile (fun c => c == '0')

/-- One iteration of the `lookup` loop body (`stages.py` lines 192-201) for a
part with canonical key `key`:

* if the key contains the block separator, `ctm[key]` is returned, a missing
  key raising `KeyError`;
* otherwise the source evaluates `ctm.get(key, ctm[key.lstrip('0')])`; Python
  evaluates the default argument `ctm[key.lstrip('0')]` first and eagerly, so
  a missing stripped key raises `KeyError` even when `key` itself is present;
  when the stripped key is present, `get` returns `ctm[key]` if present and
  the stripped-key value otherwise.

The `except KeyError` handler re-raises a `KeyError` whose message names
`key`. -/
def lookupKey (ctm : CtmTable) (key : List Char) : Except PyErr Rat :=
  if key.contains '-' then
    match ctm key with
    | some v => .ok v
    | none => .error (.keyError key)
  else
    match ctm (lstripZeros key) with
    | none => .error (.keyError key)
    | some fb =>
        match ctm key with
        | some v => .ok v
        | none => .ok fb

/-- `lookup(parts, ctm)` (`stages.py` lines 163-201): a generator yielding
`(string_from_array(part), ctm value)` pairs; the first missing key aborts
the whole pass with `KeyError`.  The generator is modelled as the list of
yielded pairs, since its downstream consumer `aggregate` always drains it. -/
def lookup (parts : List NDArray) (ctm : CtmTable) :
    Except PyErr (List (List Char × Rat)) :=
  parts.mapM (fun part =>
    (lookupKey ctm (string_from_array part)).map
      (fun v => (string_from_array part, v)))

/-- The table used against C3: it contains exactly the key `00`. -/
def tableJustZeroZero : CtmTable :=
  fun key => if key = ['0', '0'] then some 1 else none

/-- C3 failing input: `lookup`s docstring promises a `KeyError` only when the
key of a part cannot be found, and the claim says the zero-stripping fallback
is consulted only when the exact key is absent; but the fallback argument of
`dict.get` is evaluated eagerly, so looking up the block `[0, 0]` in a table
that does contain its exact key `00` raises `KeyError` (the stripped key is
the absent empty string) instead of yielding `(00, 1)`. -/
theorem c3_lookup_eager_fallback_bug :
    tableJustZeroZero ['0', '0'] = some 1 ∧
      string_from_array ⟨[2], [0, 0]⟩ = ['0', '0'] ∧
      lookup [⟨[2], [0, 0]⟩] tableJustZeroZero
        = .error (.keyError ['0', '0']) := by
  refine ⟨rfl, by decide, rfl⟩

/-- The `counter.update([(key, ctm)])` loop of `aggregate`: Python's
`Counter` is a multiset of the `(key, value)` pairs fed to it. -/
def counterOf (ctms : List (List Char × Rat)) : Multiset (List Char × Rat) :=
  ctms.foldl (fun c p => p ::ₘ c) 0

/-- `aggregate(ctms)` (`stages.py` lines 204-234): build the counter of
`(key, value)` pairs, then add `value + np.log2(multiplicity)` for each
distinct entry of the counter.  The Python loop iterates the counter dict in
insertion order; real addition is commutative, so the total is modelled as
the sum over the finset of distinct entries.  `np.log2` is the exact base-2
logarithm on reals. -/
noncomputable def aggregate (ctms : List (List Char × Rat)) : Real :=
  ∑ p in (counterOf ctms).toFinset,
    ((p.2 : Real) + Real.logb 2 ((counterOf ctms).count p))

/-- The folded-up counter is just the multiset of the input pairs. -/
theorem counterOf_eq_coe (ctms : List (List Char × Rat)) :
    counterOf ctms = (ctms : Multiset (List Char × Rat)) := by
  have key : ∀ (l : List (List Char × Rat)) (acc : Multiset (List Char × Rat)),
      l.foldl (fun c p => p ::ₘ c) acc = acc + (l : Multiset (List Char × Rat)) := by
    intro l
    induction l with
    | nil => intro acc; simp
    | cons p t ih =>
        intro acc
        rw [List.foldl_cons, ih (p ::ₘ acc)]
        rw [show ((p :: t : List (List Char × Rat)) : Multiset (List Char × Rat))
          = p ::ₘ (t : Multiset (List Char × Rat)) from rfl]
        rw [Multiset.cons_add, Multiset.add_cons]
  rw [counterOf, key]
  simp

/-- Multiset multiplicity over the coerced list is `List.count`. -/
theorem multiset_count_eq_list_count (p : List Char × Rat)
    (l : List (List Char × Rat)) :
    Multiset.count p (l : Multiset (List Char × Rat)) = l.count p := by
  induction l with
  | nil => simp
  | cons q t ih =>
      rw [show ((q :: t : List (List Char × Rat)) : Multiset (List Char × Rat))
          = q ::ₘ (t : Multiset (List Char × Rat)) from rfl,
        Multiset.count_cons, ih, List.count_cons]
      congr 1
      by_cases h : p = q
      · subst h
        simp
      · have h2 : ¬ (q = p) := fun hq => h hq.symm
        simp [h, h2]

/-- C4: `aggregate` returns the sum over distinct `(key, value)` pairs of
`value + log2(multiplicity)`; the empty sequence aggregates to 0 and a single
pair aggregates to exactly its value. -/
theorem c4_aggregate_grouped_sum :
    (∀ ctms : List (List Char × Rat), aggregate ctms
        = ∑ p in ctms.toFinset, ((p.2 : Real) + Real.logb 2 (ctms.count p))) ∧
      aggregate [] = 0 ∧
      (∀ (k : List Char) (c : Rat), aggregate [(k, c)] = (c : Real)) := by
  have hmain : ∀ ctms : List (List Char × Rat), aggregate ctms
      = ∑ p in ctms.toFinset, ((p.2 : Real) + Real.logb 2 (ctms.count p)) := by
    intro ctms
    rw [aggregate, counterOf_eq_coe]
    rw [List.toFinset_coe]
    refine Finset.sum_congr rfl ?_
    intro p _
    rw [multiset_count_eq_list_count]
  refine ⟨hmain, ?_, ?_⟩
  · rw [hmain]
    simp
  · intro k c
    rw [hmain]
    simp [Real.logb_one]

/-- numpy `x.squeeze()`: remove all axes of size 1; the row-major data is
unchanged. -/
def squeeze (x : NDArray) : NDArray :=
  { shape := x.shape.filter (fun n => decide (n ≠ 1)), data := x.data }

/-- Python `range(0, stop, step)` for positive `step`: the multiples of
`step` strictly below `stop`.  (`range` raises `ValueError` for `step = 0`;
that case is unreachable under the partition claims, which require a
positive block width, and the model returns `[]` there.) -/
def rangeStep (stop step : Nat) : List Nat :=
  (List.range ((stop + step - 1) / step)).map (fun j => j * step)

/-- numpy basic slicing `x[..., slice(i, i + len), ...]` at axis `k` (the
`x[idx]` of `partition`): the sliced axis is clipped to `min len (n - i)`
and the row-major data is re-gathered by index arithmetic — entries before
axis `k` form `outer` blocks of `n` runs of `inner` elements each. -/
def sliceAxis (x : NDArray) (k i len : Nat) : NDArray :=
  let n := x.shape.getD k 0
  let newk := min len (n - i)
  let outer := (x.shape.take k).prod
  let inner := (x.shape.drop (k + 1)).prod
  { shape := x.shape.set k newk,
    data := (List.range outer).flatMap (fun o =>
      (List.range newk).flatMap (fun j =>
        (List.range inner).map (fun t =>
          x.data.getD ((o * n + (i + j)) * inner + t) 0))) }

/-- Replacing a list entry by a strictly smaller value strictly lowers the
sum. -/
theorem sum_set_lt : ∀ (l : List Nat) (k a : Nat), k < l.length →
    a < l.getD k 0 → (l.set k a).sum < l.sum := by
  intro l
  induction l with
  | nil => intro k a hk; simp at hk
  | cons x t ih =>
      intro k a hk ha
      cases k with
      | zero =>
          simp only [List.set, List.sum_cons]
          simp only [List.getD_cons_zero] at ha
          omega
      | succ k =>
          simp only [List.set, List.sum_cons]
          have := ih k a (by simpa using hk) (by simpa using ha)
          omega

/-- Slicing the first axis that exceeds the part width strictly shrinks the
shape sum: termination of the `partition` recursion. -/
theorem slice_sum_lt (x : NDArray) (shape : List Nat) (i : Nat)
    (h : ¬ ((x.shape.zip shape).all (fun p => decide (p.1 ≤ p.2)) = true)) :
    (sliceAxis x ((x.shape.zip shape).findIdx (fun p => decide (p.2 < p.1))) i
        (shape.getD
          ((x.shape.zip shape).findIdx (fun p => decide (p.2 < p.1))) 0)).shape.sum
      < x.shape.sum := by
  set k := (x.shape.zip shape).findIdx (fun p => decide (p.2 < p.1)) with hkdef
  have hex : ∃ p ∈ x.shape.zip shape, (fun p : Nat × Nat => decide (p.2 < p.1)) p = true := by
    rw [List.all_eq_true] at h
    push_neg at h
    obtain ⟨p, hp, hnp⟩ := h
    refine ⟨p, hp, ?_⟩
    simp only [decide_eq_true_eq]
    have hle : ¬ (p.1 ≤ p.2) := by simpa using hnp
    omega
  have hklen : k < (x.shape.zip shape).length :=
    List.findIdx_lt_length_of_exists hex
  have hkx : k < x.shape.length := by
    rw [List.length_zip] at hklen
    omega
  have hks : k < shape.length := by
    rw [List.length_zip] at hklen
    omega
  have hpred : (decide ((x.shape.zip shape)[k].2 < (x.shape.zip shape)[k].1))
      = true :=
    @List.findIdx_getElem _ (fun p => decide (p.2 < p.1)) (x.shape.zip shape)
      hklen
  rw [List.getElem_zip] at hpred
  simp only [decide_eq_true_eq] at hpred
  have hshape : (sliceAxis x k i (shape.getD k 0)).shape
      = x.shape.set k (min (shape.getD k 0) (x.shape.getD k 0 - i)) := rfl
  rw [hshape]
  apply sum_set_lt _ _ _ hkx
  rw [List.getD_eq_getElem _ _ hkx, List.getD_eq_getElem _ _ hks]
  have hmin : min shape[k] (x.shape[k] - i) ≤ shape[k] := min_le_left _ _
  omega

/-- The recursive body of `partition` (`stages.py` lines 69-84), entered
with conformable shapes (the wrapper `partition` below runs the symmetry and
conformability guards; the recursive calls of the source re-enter
`partition` with the same part shape and a dataset of unchanged
dimensionality, so the guards pass again and recursion continues here).
If every axis already fits the part width, the whole dataset is yielded;
otherwise the first axis `k` whose extent exceeds the part width is sliced
into windows starting at `range(0, end, _shift)` and each window is recursed
into.  Yields are modelled as list concatenation in yield order. -/
def partitionGo (x : NDArray) (shape : List Nat) (shift : Int) : List NDArray :=
  if h : (x.shape.zip shape).all (fun p => decide (p.1 ≤ p.2)) = true then [x]
  else
    let k := (x.shape.zip shape).findIdx (fun p => decide (p.2 < p.1))
    let n := x.shape.getD k 0
    let step := shape.getD k 0
    let sh := if shift ≤ 0 then step else shift.toNat
    let stop := if 0 < shift then n - step + 1 else n
    (rangeStep stop sh).flatMap
      (fun i => partitionGo (sliceAxis x k i step) shape shift)
termination_by x.shape.sum
decreasing_by exact slice_sum_lt x shape i h

/-- `partition(x, shape, shift)` (`stages.py` lines 29-84).  The symmetry
guard `len(set(shape)) != 1` and the squeeze-and-conformability guard run
first; the generator then yields through `partitionGo`. -/
def partition (x : NDArray) (shape : List Nat) (shift : Int) :
    Except PyErr (List NDArray) :=
  if shape.dedup.length ≠ 1 then
    .error (.attributeError "Partition shape is not symmetric")
  else
    let x1 := if shape.length ≠ x.shape.length then squeeze x else x
    if shape.length ≠ x1.shape.length then
      .error (.attributeError "Dataset and part shapes are not conformable")
    else .ok (partitionGo x1 shape shift)

/-- `partition_ignore(x, shape)` (`stages.py` lines 86-118): iterate
`partition` with the default `shift=0` and yield only the parts whose shape
equals the target shape. -/
def partition_ignore (x : NDArray) (shape : List Nat) :
    Except PyErr (List NDArray) :=
  (partition x shape 0).map (fun parts =>
    parts.filter (fun part => decide (part.shape = shape)))

/-- When every axis already fits the part width, the whole dataset is the
single yield. -/
theorem partitionGo_fits (x : NDArray) (shape : List Nat) (shift : Int)
    (h : (x.shape.zip shape).all (fun p => decide (p.1 ≤ p.2)) = true) :
    partitionGo x shape shift = [x] := by
  rw [partitionGo, dif_pos h]

/-- A positive-length run of one value dedups to that single value. -/
theorem dedup_replicate (w : Nat) :
    ∀ d, 0 < d → (List.replicate d w).dedup = [w] := by
  intro d
  induction d with
  | zero => intro h; omega
  | succ d ih =>
      intro _
      by_cases hd : 0 < d
      · rw [List.replicate_succ,
          List.dedup_cons_of_mem (by simp [List.mem_replicate]; omega), ih hd]
      · have : d = 0 := by omega
        subst this
        rfl

/-- Taking `len` elements after dropping `i` reads off entries `i+j`. -/
theorem drop_take_eq_map_range (a : List Nat) (i len : Nat) :
    (a.drop i).take len
      = (List.range (min len (a.length - i))).map (fun j => a.getD (i + j) 0) := by
  apply List.ext_getElem
  · simp [List.length_take, List.length_drop]
  · intro j h1 h2
    simp only [List.getElem_map, List.getElem_range]
    have hj : j < min len (a.length - i) := by simpa using h2
    have hij : i + j < a.length := by omega
    rw [List.getElem_take, List.getElem_drop, List.getD_eq_getElem _ _ hij]

/-- Flat-mapping a singleton-valued function is mapping. -/
theorem flatMap_singleton_map {α β : Type} (l : List α) (f : α → β) :
    (l.flatMap (fun a => [f a])) = l.map f := by
  induction l with
  | nil => rfl
  | cons x t ih =>
      rw [List.flatMap_cons, List.map_cons, ih]
      rfl

/-- 1-D slicing is `drop`-then-`take`. -/
theorem sliceAxis_one_dim (a : List Nat) (i len : Nat) :
    sliceAxis ⟨[a.length], a⟩ 0 i len
      = ⟨[min len (a.length - i)], (a.drop i).take len⟩ := by
  unfold sliceAxis
  simp only
  congr 1
  rw [drop_take_eq_map_range]
  have h1 : List.range 1 = [0] := rfl
  simp [h1]
  exact flatMap_singleton_map _ _

/-- Every member of `range(0, stop, step)` is below `stop`. -/
theorem mem_rangeStep_lt (stop step i : Nat) (hi : i ∈ rangeStep stop step) :
    i < stop := by
  unfold rangeStep at hi
  simp only [List.mem_map, List.mem_range] at hi
  obtain ⟨j, hj, rfl⟩ := hi
  by_cases hs : 0 < step
  · have h1 : j + 1 ≤ (stop + step - 1) / step := hj
    have h2 : (j + 1) * step ≤ ((stop + step - 1) / step) * step :=
      Nat.mul_le_mul_right _ h1
    have h3 : ((stop + step - 1) / step) * step ≤ stop + step - 1 :=
      Nat.div_mul_le_self _ _
    have h4 : (j + 1) * step = j * step + step := by ring
    omega
  · have : step = 0 := by omega
    subst this
    simp at hj

/-- `range(0, w*m, w)` enumerates the `m` multiples of a positive `w`. -/
theorem rangeStep_mul (w m : Nat) (hw : 0 < w) :
    rangeStep (w * m) w = (List.range m).map (fun j => j * w) := by
  unfold rangeStep
  congr 2
  have h1 : w * m + w - 1 = (w - 1) + w * m := by omega
  rw [h1, Nat.add_mul_div_left _ _ hw, Nat.div_eq_of_lt (by omega)]
  omega

/-- Full 1-D behaviour of `partition` for a window narrower than the data:
windows start at `range(0, end, _shift)` where `end` is `n - w + 1` for a
positive shift and `n` otherwise, and each window is `a[i : i + w]`, clipped
at the right edge. -/
theorem partition_one_dim (a : List Nat) (w : Nat) (s : Int)
    (hw : 0 < w) (hlt : w < a.length) :
    partition ⟨[a.length], a⟩ [w] s
      = .ok ((rangeStep (if 0 < s then a.length - w + 1 else a.length)
            (if s ≤ 0 then w else s.toNat)).map
          (fun i => ⟨[min w (a.length - i)], (a.drop i).take w⟩)) := by
  have hc1 : ¬ (([w] : List Nat).dedup.length ≠ 1) := by simp
  have hc2 : ¬ (([w] : List Nat).length
      ≠ (⟨[a.length], a⟩ : NDArray).shape.length) := by simp
  unfold partition
  rw [if_neg hc1]
  simp only [if_neg hc2]
  congr 1
  rw [partitionGo]
  have hcond : ¬ ((((⟨[a.length], a⟩ : NDArray).shape.zip [w]).all
      (fun p => decide (p.1 ≤ p.2))) = true) := by
    simp only [List.zip_cons_cons, List.zip_nil_left, List.all_cons,
      List.all_nil, Bool.and_true, decide_eq_true_eq]
    omega
  rw [dif_neg hcond]
  have hk : (((⟨[a.length], a⟩ : NDArray).shape.zip [w]).findIdx
      (fun p => decide (p.2 < p.1))) = 0 := by
    simp [List.findIdx_cons, hlt]
  simp only [hk, List.getD_cons_zero]
  have hwin : ∀ i, partitionGo (sliceAxis ⟨[a.length], a⟩ 0 i w) [w] s
      = [⟨[min w (a.length - i)], (a.drop i).take w⟩] := by
    intro i
    rw [sliceAxis_one_dim a i w]
    exact partitionGo_fits _ [w] s (by simp)
  rw [List.flatMap_congr (fun i _ => hwin i), flatMap_singleton_map]

/-- C6 counterexample.  With `shift = 0` (non-positive) on `[1, 1, 1]` with
width 2, `partition` yields the leftover part `[1]` of shape `(1,)`, which
the claim says is not yielded.  With `shift = 2` on a length-5 array the
offsets are the multiples of 2 strictly below `5 - 2 + 1 = 4`: although
`4 = 2·2 ≤ 4`, no window starts at offset 4 (neither a clipped window `[4]`
nor a full window could), so the offsets do not run "up to
`axis_length - block_width + 1` inclusive". -/
theorem c6_partition_shift_counterexample :
    (partition ⟨[3], [1, 1, 1]⟩ [2] 0
        = .ok [⟨[2], [1, 1]⟩, ⟨[1], [1]⟩] ∧
      (⟨[1], [1]⟩ : NDArray).shape ≠ [2]) ∧
    (partition ⟨[5], [0, 1, 2, 3, 4]⟩ [2] 2
        = .ok [⟨[2], [0, 1]⟩, ⟨[2], [2, 3]⟩] ∧
      (4 : Nat) = 2 * 2 ∧ (4 : Nat) ≤ 5 - 2 + 1 ∧
      ¬ ((⟨[1], [4]⟩ : NDArray)
          ∈ [(⟨[2], [0, 1]⟩ : NDArray), ⟨[2], [2, 3]⟩]) ∧
      ¬ ((⟨[2], [4, 0]⟩ : NDArray)
          ∈ [(⟨[2], [0, 1]⟩ : NDArray), ⟨[2], [2, 3]⟩])) := by
  refine ⟨⟨?_, by decide⟩, ?_, by decide, by decide, by decide, by decide⟩
  · rw [show (⟨[3], [1, 1, 1]⟩ : NDArray)
        = ⟨[([1, 1, 1] : List Nat).length], [1, 1, 1]⟩ from rfl,
      partition_one_dim [1, 1, 1] 2 0 (by decide) (by decide)]
    decide
  · rw [show (⟨[5], [0, 1, 2, 3, 4]⟩ : NDArray)
        = ⟨[([0, 1, 2, 3, 4] : List Nat).length], [0, 1, 2, 3, 4]⟩ from rfl,
      partition_one_dim [0, 1, 2, 3, 4] 2 2 (by decide) (by decide)]
    decide

/-- Zipping a list with a same-length constant run compares every entry with
the constant. -/
theorem all_zip_replicate (l : List Nat) (w : Nat) :
    ((l.zip (List.replicate l.length w)).all (fun p => decide (p.1 ≤ p.2)))
      = l.all (fun n => decide (n ≤ w)) := by
  induction l with
  | nil => rfl
  | cons x t ih =>
      rw [List.length_cons, List.replicate_succ, List.zip_cons_cons,
        List.all_cons, List.all_cons, ih]

/-- The first oversized axis of a constant part shape. -/
theorem findIdx_zip_replicate (l : List Nat) (w : Nat) :
    ((l.zip (List.replicate l.length w)).findIdx (fun p => decide (p.2 < p.1)))
      = l.findIdx (fun n => decide (w < n)) := by
  induction l with
  | nil => rfl
  | cons x t ih =>
      rw [List.length_cons, List.replicate_succ, List.zip_cons_cons,
        List.findIdx_cons, List.findIdx_cons, ih]

/-- Length of a flat map whose pieces have one common length. -/
theorem length_flatMap_const {β : Type} (a c : Nat) (f : Nat → List β)
    (hf : ∀ j, (f j).length = c) :
    ((List.range a).flatMap f).length = a * c := by
  rw [List.length_flatMap]
  have hrep : (List.range a).map (List.length ∘ f) = List.replicate a c := by
    refine List.eq_replicate_iff.mpr ⟨by simp, ?_⟩
    intro b hb
    simp only [List.mem_map] at hb
    obtain ⟨j, _, rfl⟩ := hb
    exact hf j
  rw [hrep, List.sum_replicate, smul_eq_mul]

/-- The shape of a slice: the sliced axis is clipped. -/
theorem sliceAxis_shape (x : NDArray) (k i len : Nat) :
    (sliceAxis x k i len).shape
      = x.shape.set k (min len (x.shape.getD k 0 - i)) := rfl

/-- The element count of a slice is the product of the outer extents, the
clipped axis width and the inner extents. -/
theorem sliceAxis_data_length (x : NDArray) (k i len : Nat) :
    (sliceAxis x k i len).data.length
      = (x.shape.take k).prod * (min len (x.shape.getD k 0 - i))
          * (x.shape.drop (k + 1)).prod := by
  unfold sliceAxis
  simp only
  rw [length_flatMap_const _
    ((min len (x.shape.getD k 0 - i)) * (x.shape.drop (k + 1)).prod)]
  · ring
  · intro o
    rw [length_flatMap_const _ ((x.shape.drop (k + 1)).prod)]
    intro j
    simp

/-- Product of a list split around one position. -/
theorem prod_take_getD_drop : ∀ (l : List Nat) (k : Nat), k < l.length →
    l.prod = (l.take k).prod * l.getD k 0 * (l.drop (k + 1)).prod := by
  intro l
  induction l with
  | nil => intro k hk; simp at hk
  | cons x t ih =>
      intro k hk
      cases k with
      | zero => simp
      | succ k =>
          rw [List.prod_cons, List.take_succ_cons, List.prod_cons,
            List.getD_cons_succ, List.drop_succ_cons, ih k (by simpa using hk)]
          ring

/-- Product after replacing one position. -/
theorem prod_set_eq : ∀ (l : List Nat) (k a : Nat), k < l.length →
    (l.set k a).prod = (l.take k).prod * a * (l.drop (k + 1)).prod := by
  intro l
  induction l with
  | nil => intro k a hk; simp at hk
  | cons x t ih =>
      intro k a hk
      cases k with
      | zero => simp [List.set]
      | succ k =>
          simp only [List.set, List.prod_cons, List.take_succ_cons,
            List.drop_succ_cons]
          rw [ih k a (by simpa using hk)]
          ring

/-- Summing a filtered map over a flat map splits into per-piece sums. -/
theorem sum_map_filter_flatMap {α : Type} (l : List α) (f : α → List NDArray)
    (p : NDArray → Bool) (g : NDArray → Nat) :
    (((l.flatMap f).filter p).map g).sum
      = (l.map (fun a => (((f a).filter p).map g).sum)).sum := by
  induction l with
  | nil => rfl
  | cons a t ih =>
      rw [List.flatMap_cons, List.filter_append, List.map_append,
        List.sum_append, ih, List.map_cons, List.sum_cons]

/-- Summing a constant over a list. -/
theorem map_const_sum {α : Type} (l : List α) (c : Nat) :
    (l.map (fun _ => c)).sum = l.length * c := by
  induction l with
  | nil => simp
  | cons x t ih =>
      rw [List.map_cons, List.sum_cons, ih, List.length_cons]
      ring

/-- The index returned by the oversized-axis search is in range and its axis
really is oversized. -/
theorem findIdx_oversized (x : NDArray) (shape : List Nat)
    (h : ¬ ((x.shape.zip shape).all (fun p => decide (p.1 ≤ p.2)) = true)) :
    ((x.shape.zip shape).findIdx (fun p => decide (p.2 < p.1)) < x.shape.length
        ∧ (x.shape.zip shape).findIdx (fun p => decide (p.2 < p.1))
          < shape.length)
      ∧ shape.getD ((x.shape.zip shape).findIdx (fun p => decide (p.2 < p.1))) 0
          < x.shape.getD
            ((x.shape.zip shape).findIdx (fun p => decide (p.2 < p.1))) 0 := by
  have hex : ∃ p ∈ x.shape.zip shape,
      (fun p : Nat × Nat => decide (p.2 < p.1)) p = true := by
    rw [List.all_eq_true] at h
    push_neg at h
    obtain ⟨p, hp, hnp⟩ := h
    refine ⟨p, hp, ?_⟩
    simp only [decide_eq_true_eq]
    have hle : ¬ (p.1 ≤ p.2) := by simpa using hnp
    omega
  have hklen : (x.shape.zip shape).findIdx (fun p => decide (p.2 < p.1))
      < (x.shape.zip shape).length := List.findIdx_lt_length_of_exists hex
  have hkx : (x.shape.zip shape).findIdx (fun p => decide (p.2 < p.1))
      < x.shape.length := by
    rw [List.length_zip] at hklen
    omega
  have hks : (x.shape.zip shape).findIdx (fun p => decide (p.2 < p.1))
      < shape.length := by
    rw [List.length_zip] at hklen
    omega
  have hpred : (decide
      ((x.shape.zip shape)[(x.shape.zip shape).findIdx
          (fun p => decide (p.2 < p.1))].2
        < (x.shape.zip shape)[(x.shape.zip shape).findIdx
          (fun p => decide (p.2 < p.1))].1)) = true :=
    @List.findIdx_getElem _ (fun p => decide (p.2 < p.1)) (x.shape.zip shape)
      hklen
  rw [List.getElem_zip] at hpred
  simp only [decide_eq_true_eq] at hpred
  refine ⟨⟨hkx, hks⟩, ?_⟩
  rw [List.getD_eq_getElem _ _ hkx, List.getD_eq_getElem _ _ hks]
  exact hpred

/-- Divisible coverage, base case: when every axis fits the block width, a
fully divisible array is either exactly one block (all axes equal the width)
or empty (some axis is zero), and in both cases the kept blocks carry all of
the data. -/
theorem partitionGo_divisible_base (x : NDArray) (d w : Nat)
    (hd : x.shape.length = d) (hdata : x.data.length = x.shape.prod)
    (hdiv : ∀ n ∈ x.shape, w ∣ n)
    (hall : ((x.shape.zip (List.replicate d w)).all
        (fun p => decide (p.1 ≤ p.2))) = true) :
    (((partitionGo x (List.replicate d w) 0).filter
        (fun b => decide (b.shape = List.replicate d w))).map
      (fun b => b.data.length)).sum = x.data.length := by
  rw [partitionGo_fits _ _ _ hall]
  have hle : ∀ n ∈ x.shape, n ≤ w := by
    have hz := hall
    rw [← hd, all_zip_replicate, List.all_eq_true] at hz
    intro n hn
    have := hz n hn
    simpa using this
  by_cases hxw : x.shape = List.replicate d w
  · rw [List.filter_cons, if_pos (by simpa using hxw)]
    simp
  · have h0 : (0 : Nat) ∈ x.shape := by
      by_contra h0
      apply hxw
      refine List.eq_replicate_iff.mpr ⟨hd, ?_⟩
      intro n hn
      have hdvd := hdiv n hn
      have hlen := hle n hn
      have hne : n ≠ 0 := fun hzz => h0 (hzz ▸ hn)
      have hwn : w ≤ n := Nat.le_of_dvd (Nat.pos_of_ne_zero hne) hdvd
      omega
    have hprod : x.shape.prod = 0 := List.prod_eq_zero h0
    rw [List.filter_cons, if_neg (by simpa using hxw)]
    simp [hdata, hprod]

/-- Divisible coverage, the recursion: with every axis a multiple of the
block width, the parts kept by the ignore-leftover filter carry exactly the
element count of the dataset. -/
theorem partitionGo_divisible_sum :
    ∀ (N : Nat) (x : NDArray) (d w : Nat), x.shape.sum ≤ N → 0 < w →
      x.shape.length = d → x.data.length = x.shape.prod →
      (∀ n ∈ x.shape, w ∣ n) →
      (((partitionGo x (List.replicate d w) 0).filter
          (fun b => decide (b.shape = List.replicate d w))).map
        (fun b => b.data.length)).sum = x.data.length := by
  intro N
  induction N with
  | zero =>
      intro x d w hN hw hd hdata hdiv
      refine partitionGo_divisible_base x d w hd hdata hdiv ?_
      rw [← hd, all_zip_replicate, List.all_eq_true]
      intro n hn
      have : n ≤ x.shape.sum :=
        List.single_le_sum (fun y _ => Nat.zero_le y) n hn
      simp only [decide_eq_true_eq]
      omega
  | succ N ih =>
      intro x d w hN hw hd hdata hdiv
      by_cases hall : ((x.shape.zip (List.replicate d w)).all
          (fun p => decide (p.1 ≤ p.2))) = true
      · exact partitionGo_divisible_base x d w hd hdata hdiv hall
      · obtain ⟨⟨hkx, hks⟩, hover⟩ := findIdx_oversized x (List.replicate d w) hall
        rw [partitionGo, dif_neg hall]
        simp only
        set k := (x.shape.zip (List.replicate d w)).findIdx
          (fun p => decide (p.2 < p.1)) with hkdef
        have hstep : (List.replicate d w).getD k 0 = w := by
          rw [List.getD_eq_getElem _ _ hks, List.getElem_replicate]
        have hn := hover
        rw [hstep] at hn
        -- the oversized axis is a positive multiple of w
        obtain ⟨m, hm⟩ := hdiv (x.shape.getD k 0)
          (by
            rw [List.getD_eq_getElem _ _ hkx]
            exact List.getElem_mem _)
        have hm1 : 1 ≤ m := by
          by_contra hc
          have : m = 0 := by omega
          rw [this, Nat.mul_zero] at hm
          omega
        rw [hstep]
        rw [if_pos (le_refl (0 : Int)), if_neg (lt_irrefl (0 : Int))]
        rw [hm, rangeStep_mul w m hw, List.flatMap_map]
        rw [sum_map_filter_flatMap]
        have hslice : ∀ j, j < m →
          (((partitionGo (sliceAxis x k (j * w) w) (List.replicate d w) 0).filter
              (fun b => decide (b.shape = List.replicate d w))).map
            (fun b => b.data.length)).sum
            = (x.shape.take k).prod * w * (x.shape.drop (k + 1)).prod := by
          intro j hj
          have hjw : j * w + w ≤ w * m := by
            have h1 : (j + 1) * w ≤ m * w := Nat.mul_le_mul_right w hj
            have h2 : (j + 1) * w = j * w + w := by ring
            have h3 : m * w = w * m := by ring
            omega
          have hmin : min w (x.shape.getD k 0 - j * w) = w := by
            rw [hm]
            omega
          have hshape : (sliceAxis x k (j * w) w).shape = x.shape.set k w := by
            rw [sliceAxis_shape, hmin]
          have hdl : (sliceAxis x k (j * w) w).data.length
              = (sliceAxis x k (j * w) w).shape.prod := by
            rw [sliceAxis_data_length, hshape, hmin, prod_set_eq _ _ _ hkx]
          have hsum : (sliceAxis x k (j * w) w).shape.sum ≤ N := by
            rw [hshape]
            have := sum_set_lt x.shape k w hkx (by omega)
            omega
          have hlen : (sliceAxis x k (j * w) w).shape.length = d := by
            rw [hshape, List.length_set, hd]
          have hdiv2 : ∀ n ∈ (sliceAxis x k (j * w) w).shape, w ∣ n := by
            rw [hshape]
            intro n hn
            rcases List.mem_or_eq_of_mem_set hn with hmem | hof
            · exact hdiv n hmem
            · rw [hof]
          rw [ih (sliceAxis x k (j * w) w) d w hsum hw hlen hdl hdiv2, hdl,
            hshape, prod_set_eq _ _ _ hkx]
        rw [List.map_congr_left (fun j hj => hslice j (List.mem_range.mp hj))]
        rw [map_const_sum, List.length_range]
        rw [hdata, prod_take_getD_drop x.shape k hkx, hm]
        ring

/-- C7: for an array whose every dimension is a multiple of the (positive)
block width, `partition_ignore` succeeds and yields only blocks of exactly
the block shape, whose element counts add up to the element count of the
whole array; and, for every array whatsoever, no yielded block has a shape
other than the block shape — leftover regions never appear in the output. -/
theorem c7_partition_ignore_coverage :
    (∀ (x : NDArray) (d w : Nat), 0 < w → 0 < d → x.shape.length = d →
      x.data.length = x.shape.prod → (∀ n ∈ x.shape, w ∣ n) →
      ∃ blocks, partition_ignore x (List.replicate d w) = .ok blocks ∧
        (∀ b ∈ blocks, b.shape = List.replicate d w) ∧
        (blocks.map (fun b => b.data.length)).sum = x.data.length) ∧
    (∀ (x : NDArray) (shape : List Nat) (blocks : List NDArray),
      partition_ignore x shape = .ok blocks →
        ∀ b ∈ blocks, b.shape = shape) := by
  constructor
  · intro x d w hw hd0 hd hdata hdiv
    have hok : partition_ignore x (List.replicate d w)
        = .ok ((partitionGo x (List.replicate d w) 0).filter
            (fun b => decide (b.shape = List.replicate d w))) := by
      unfold partition_ignore partition
      rw [if_neg (by rw [dedup_replicate w d hd0]; simp)]
      simp only [List.length_replicate]
      rw [show (if d ≠ x.shape.length then squeeze x else x) = x from
        if_neg (by omega)]
      rw [if_neg (by omega)]
      rfl
    refine ⟨_, hok, ?_, ?_⟩
    · intro b hb
      simpa using List.of_mem_filter hb
    · exact partitionGo_divisible_sum x.shape.sum x d w (le_refl _) hw
        hd hdata hdiv
  · intro x shape blocks hok b hb
    unfold partition_ignore at hok
    cases hp : partition x shape 0 with
    | error e =>
        rw [hp] at hok
        simp [Except.map] at hok
    | ok parts =>
        rw [hp] at hok
        simp only [Except.map, Except.ok.injEq] at hok
        rw [← hok] at hb
        simpa using List.of_mem_filter hb

/-- Witness for C7 at the 1-D array `[1, 0, 1, 0]` with block width 2. -/
theorem c7_partition_ignore_coverage_witness :
    (0 < 2 ∧ 0 < 1 ∧ (⟨[4], [1, 0, 1, 0]⟩ : NDArray).shape.length = 1 ∧
      (⟨[4], [1, 0, 1, 0]⟩ : NDArray).data.length
        = (⟨[4], [1, 0, 1, 0]⟩ : NDArray).shape.prod ∧
      (∀ n ∈ (⟨[4], [1, 0, 1, 0]⟩ : NDArray).shape, 2 ∣ n)) ∧
      ∃ blocks, partition_ignore ⟨[4], [1, 0, 1, 0]⟩ (List.replicate 1 2)
          = .ok blocks ∧
        (∀ b ∈ blocks, b.shape = List.replicate 1 2) ∧
        (blocks.map (fun b => b.data.length)).sum
          = (⟨[4], [1, 0, 1, 0]⟩ : NDArray).data.length :=
  ⟨⟨by decide, by decide, by decide, by decide, by decide⟩,
    c7_partition_ignore_coverage.1 ⟨[4], [1, 0, 1, 0]⟩ 1 2 (by decide)
      (by decide) (by decide) (by decide) (by decide)⟩

/-- The parameter list of `stages.lookup`, `def lookup(parts, ctm)`: the
call in `BDM.complexity` is bound against these names. -/
def lookupParamNames : List String := ["parts", "ctm"]

/-- `BDM.complexity(x)` (`bdm.py` lines 86-102) for a `BDM` holding a loaded
reference table, a block shape and a base, with the default stage functions
`partition_ignore`, `lookup` and `aggregate`.  Line 99 only creates the lazy
partition generator; line 100 then calls
`self.lookup(parts, self._ctm, base=self.base)`, and Python binds the call
arguments against `lookup`s parameters `(parts, ctm)`.  The keyword `base`
matches no parameter, so the call raises `TypeError` before any stage of the
pipeline runs.  Were the binding to succeed, the pipeline
`aggregate(lookup(partition_ignore(x, ctm_shape), ctm))` in the first branch
would run. -/
noncomputable def complexity (ctm : CtmTable) (ctm_shape : List Nat)
    (base : Nat) (x : NDArray) : Except PyErr Real :=
  if lookupParamNames.contains "base" then
    match partition_ignore x ctm_shape with
    | .error e => .error e
    | .ok parts =>
        match lookup parts ctm with
        | .error e => .error e
        | .ok ctms => .ok (aggregate ctms)
  else .error (.typeError "lookup got an unexpected keyword argument base")

/-- C1 failing behaviour: `BDM.complexity` never composes the three stages —
for every table, block shape, base and input array it raises `TypeError`
(`lookup() got an unexpected keyword argument base`, from `bdm.py` line
100) instead of returning
`aggregate(lookup(partition(x, ctm_shape), table))` as a float; the
repository's own `test_bdm.py` expects numeric results from these calls. -/
theorem c1_complexity_type_error (ctm : CtmTable) (ctm_shape : List Nat)
    (base : Nat) (x : NDArray) :
    complexity ctm ctm_shape base x
      = .error (.typeError "lookup got an unexpected keyword argument base")
      ∧ ∀ r : Real, complexity ctm ctm_shape base x ≠ .ok r := by
  have h : complexity ctm ctm_shape base x
      = .error (.typeError "lookup got an unexpected keyword argument base") := by
    unfold complexity
    rfl
  exact ⟨h, fun r hr => by rw [h] at hr; exact Except.noConfusion hr⟩

/-- C5: a block whose canonical key is absent from the table even after
stripping leading zeros makes `lookup` fail with a `KeyError` carrying that
key; but the enclosing `complexity()` call cannot propagate it, because it
raises `TypeError` first (the `base=` keyword slip of C1) — it indeed never
produces a numeric result, though not for the claimed reason. -/
theorem c5_missing_key_propagation :
    (∀ (ctm : CtmTable) (part : NDArray),
      ctm (string_from_array part) = none →
      ctm (lstripZeros (string_from_array part)) = none →
      lookup [part] ctm = .error (.keyError (string_from_array part))) ∧
    (∀ (ctm : CtmTable) (ctm_shape : List Nat) (base : Nat) (x : NDArray),
      complexity ctm ctm_shape base x
        = .error (.typeError "lookup got an unexpected keyword argument base")) := by
  constructor
  · intro ctm part hkey hstrip
    have hone : lookupKey ctm (string_from_array part)
        = .error (.keyError (string_from_array part)) := by
      unfold lookupKey
      by_cases hc : (string_from_array part).contains '-' = true
      · rw [if_pos hc, hkey]
      · rw [if_neg hc, hstrip]
    unfold lookup
    rw [List.mapM_cons, hone]
    rfl
  · intro ctm ctm_shape base x
    unfold complexity
    rfl

/-- Witness for C5 at the block `[1, 1]` and the empty table. -/
theorem c5_missing_key_propagation_witness :
    ((fun _ => (none : Option Rat)) (string_from_array ⟨[2], [1, 1]⟩) = none ∧
      (fun _ => (none : Option Rat))
        (lstripZeros (string_from_array ⟨[2], [1, 1]⟩)) = none) ∧
      lookup [⟨[2], [1, 1]⟩] (fun _ => none)
        = .error (.keyError (string_from_array ⟨[2], [1, 1]⟩)) ∧
      complexity (fun _ => none) [12] 2 ⟨[2], [1, 1]⟩
        = .error (.typeError "lookup got an unexpected keyword argument base") :=
  ⟨⟨rfl, rfl⟩,
    c5_missing_key_propagation.1 (fun _ => none) ⟨[2], [1, 1]⟩ rfl rfl,
    c5_missing_key_propagation.2 (fun _ => none) [12] 2 ⟨[2], [1, 1]⟩⟩

/-- The axis the `for k, shp in enumerate(shapes)` loop of `partition` acts
on before `break`ing: the first axis whose extent exceeds the part width. -/
def firstOversizedAxis (x : NDArray) (shape : List Nat) : Nat :=
  (x.shape.zip shape).findIdx (fun p => decide (p.2 < p.1))

/-- `range(0, stop, step)` enumerates exactly the multiples of `step`
strictly below `stop`. -/
theorem mem_rangeStep_iff (stop sh i : Nat) (hsh : 0 < sh) :
    i ∈ rangeStep stop sh ↔ sh ∣ i ∧ i < stop := by
  constructor
  · intro hi
    refine ⟨?_, mem_rangeStep_lt _ _ _ hi⟩
    unfold rangeStep at hi
    simp only [List.mem_map, List.mem_range] at hi
    obtain ⟨j, _, rfl⟩ := hi
    exact ⟨j, by ring⟩
  · rintro ⟨⟨j, rfl⟩, hlt⟩
    unfold rangeStep
    simp only [List.mem_map, List.mem_range]
    refine ⟨j, ?_, by ring⟩
    have h1 : (j + 1) * sh ≤ stop + sh - 1 := by
      have h2 : (j + 1) * sh = sh * j + sh := by ring
      omega
    have := (Nat.le_div_iff_mul_le hsh).mpr h1
    omega

/-- Offset 0 is always a window start when the range is nonempty. -/
theorem zero_mem_rangeStep (stop sh : Nat) (hstop : 0 < stop) (hsh : 0 < sh) :
    0 ∈ rangeStep stop sh :=
  (mem_rangeStep_iff stop sh 0 hsh).mpr ⟨Dvd.intro 0 rfl, hstop⟩

/-- Reading any other position is unaffected by `set`. -/
theorem getD_set_ne (l : List Nat) (k e a : Nat) (h : k ≠ e) :
    (l.set k a).getD e 0 = l.getD e 0 := by
  by_cases he : e < l.length
  · rw [List.getD_eq_getElem _ _ (by rw [List.length_set]; exact he),
      List.getD_eq_getElem _ _ he, List.getElem_set, if_neg h]
  · rw [List.getD_eq_default _ _ (by rw [List.length_set]; omega),
      List.getD_eq_default _ _ (by omega)]

/-- With a positive block width, `partition`s recursion always yields at
least one part. -/
theorem partitionGo_replicate_ne_nil :
    ∀ (N : Nat) (x : NDArray) (d w : Nat) (s : Int), x.shape.sum ≤ N →
      0 < w → partitionGo x (List.replicate d w) s ≠ [] := by
  intro N
  induction N with
  | zero =>
      intro x d w s hN hw
      have hall : ((x.shape.zip (List.replicate d w)).all
          (fun p => decide (p.1 ≤ p.2))) = true := by
        rw [List.all_eq_true]
        rintro ⟨p1, p2⟩ hp
        have hmem := List.of_mem_zip hp
        have : p1 ≤ x.shape.sum :=
          List.single_le_sum (fun y _ => Nat.zero_le y) p1 hmem.1
        simp only [decide_eq_true_eq]
        omega
      rw [partitionGo_fits _ _ _ hall]
      simp
  | succ N ih =>
      intro x d w s hN hw
      by_cases hall : ((x.shape.zip (List.replicate d w)).all
          (fun p => decide (p.1 ≤ p.2))) = true
      · rw [partitionGo_fits _ _ _ hall]
        simp
      · obtain ⟨⟨hkx, hks⟩, hover⟩ :=
          findIdx_oversized x (List.replicate d w) hall
        rw [partitionGo, dif_neg hall]
        simp only
        set k := (x.shape.zip (List.replicate d w)).findIdx
          (fun p => decide (p.2 < p.1)) with hkdef
        have hstep : (List.replicate d w).getD k 0 = w := by
          rw [List.getD_eq_getElem _ _ hks, List.getElem_replicate]
        rw [hstep] at hover
        rw [hstep]
        intro hnil
        rw [List.flatMap_eq_nil_iff] at hnil
        have hsh : 0 < (if s ≤ 0 then w else s.toNat) := by
          by_cases hs : s ≤ 0
          · rw [if_pos hs]; exact hw
          · rw [if_neg hs]; omega
        have hstop : 0 < (if 0 < s then x.shape.getD k 0 - w + 1
            else x.shape.getD k 0) := by
          by_cases hs : 0 < s
          · rw [if_pos hs]; omega
          · rw [if_neg hs]; omega
        have h0 := hnil 0 (zero_mem_rangeStep _ _ hstop hsh)
        have hsum : (sliceAxis x k 0 w).shape.sum ≤ N := by
          rw [sliceAxis_shape]
          have := sum_set_lt x.shape k (min w (x.shape.getD k 0 - 0)) hkx
            (by omega)
          omega
        exact ih (sliceAxis x k 0 w) d w s hsum hw h0

/-- An axis already no longer than the block width is never sliced again:
every yielded part keeps its extent there. -/
theorem partitionGo_keeps_small_axis :
    ∀ (N : Nat) (x : NDArray) (d w : Nat) (s : Int) (e : Nat),
      x.shape.sum ≤ N → x.shape.getD e 0 ≤ w →
      ∀ b ∈ partitionGo x (List.replicate d w) s,
        b.shape.getD e 0 = x.shape.getD e 0 := by
  intro N
  induction N with
  | zero =>
      intro x d w s e hN hle b hb
      have hall : ((x.shape.zip (List.replicate d w)).all
          (fun p => decide (p.1 ≤ p.2))) = true := by
        rw [List.all_eq_true]
        rintro ⟨p1, p2⟩ hp
        have hmem := List.of_mem_zip hp
        have : p1 ≤ x.shape.sum :=
          List.single_le_sum (fun y _ => Nat.zero_le y) p1 hmem.1
        simp only [decide_eq_true_eq]
        omega
      rw [partitionGo_fits _ _ _ hall] at hb
      rw [List.mem_singleton.mp hb]
  | succ N ih =>
      intro x d w s e hN hle b hb
      by_cases hall : ((x.shape.zip (List.replicate d w)).all
          (fun p => decide (p.1 ≤ p.2))) = true
      · rw [partitionGo_fits _ _ _ hall] at hb
        rw [List.mem_singleton.mp hb]
      · obtain ⟨⟨hkx, hks⟩, hover⟩ :=
          findIdx_oversized x (List.replicate d w) hall
        rw [partitionGo, dif_neg hall] at hb
        simp only at hb
        set k := (x.shape.zip (List.replicate d w)).findIdx
          (fun p => decide (p.2 < p.1)) with hkdef
        have hstep : (List.replicate d w).getD k 0 = w := by
          rw [List.getD_eq_getElem _ _ hks, List.getElem_replicate]
        rw [hstep] at hover hb
        rw [List.mem_flatMap] at hb
        obtain ⟨i, hi, hbmem⟩ := hb
        have hke : k ≠ e := by
          intro hcontra
          rw [hcontra] at hover
          omega
        have hslice_getD : (sliceAxis x k i w).shape.getD e 0
            = x.shape.getD e 0 := by
          rw [sliceAxis_shape]
          exact getD_set_ne _ _ _ _ hke
        have hsum : (sliceAxis x k i w).shape.sum ≤ N := by
          rw [sliceAxis_shape]
          have := sum_set_lt x.shape k (min w (x.shape.getD k 0 - i)) hkx
            (by omega)
          omega
        have := ih (sliceAxis x k i w) d w s e hsum
          (by rw [hslice_getD]; exact hle) b hbmem
        rw [this, hslice_getD]

/-- When some axis is longer than the (positive) block width but not a
multiple of it, the `shift ≤ 0` recursion yields at least one leftover part
whose shape differs from the block shape. -/
theorem partitionGo_leftover_yielded :
    ∀ (N : Nat) (x : NDArray) (d w : Nat), x.shape.sum ≤ N → 0 < w →
      x.shape.length = d →
      (∃ e, e < d ∧ w < x.shape.getD e 0 ∧ ¬ w ∣ x.shape.getD e 0) →
      ∃ b ∈ partitionGo x (List.replicate d w) 0,
        b.shape ≠ List.replicate d w := by
  intro N
  induction N with
  | zero =>
      intro x d w hN hw hd hbad
      obtain ⟨e, hed, hew, _⟩ := hbad
      exfalso
      have hmem : x.shape.getD e 0 ∈ x.shape := by
        rw [List.getD_eq_getElem _ _ (by omega)]
        exact List.getElem_mem _
      have := List.single_le_sum (fun y _ => Nat.zero_le y) _ hmem
      omega
  | succ N ih =>
      intro x d w hN hw hd hbad
      obtain ⟨e, hed, hew, hendvd⟩ := hbad
      have hall : ¬ ((x.shape.zip (List.replicate d w)).all
          (fun p => decide (p.1 ≤ p.2)) = true) := by
        intro hall
        rw [List.all_eq_true] at hall
        have hzlen : e < (x.shape.zip (List.replicate d w)).length := by
          rw [List.length_zip, List.length_replicate, hd]
          omega
        have hthis := hall ((x.shape.zip (List.replicate d w))[e])
          (List.getElem_mem hzlen)
        rw [List.getElem_zip] at hthis
        simp only [decide_eq_true_eq] at hthis
        rw [List.getElem_replicate] at hthis
        rw [List.getD_eq_getElem _ _ (by omega : e < x.shape.length)] at hew
        omega
      obtain ⟨⟨hkx, hks⟩, hover⟩ :=
        findIdx_oversized x (List.replicate d w) hall
      rw [partitionGo, dif_neg hall]
      simp only
      set k := (x.shape.zip (List.replicate d w)).findIdx
        (fun p => decide (p.2 < p.1)) with hkdef
      have hstep : (List.replicate d w).getD k 0 = w := by
        rw [List.getD_eq_getElem _ _ hks, List.getElem_replicate]
      rw [hstep] at hover
      rw [hstep]
      rw [if_pos (le_refl (0 : Int)), if_neg (lt_irrefl (0 : Int))]
      by_cases hkdvd : w ∣ x.shape.getD k 0
      · have hke : k ≠ e := by
          intro hcontra
          rw [hcontra] at hkdvd
          exact hendvd hkdvd
        have h0mem : 0 ∈ rangeStep (x.shape.getD k 0) w :=
          zero_mem_rangeStep _ _ (by omega) hw
        have hslice_len : (sliceAxis x k 0 w).shape.length = d := by
          rw [sliceAxis_shape, List.length_set, hd]
        have hslice_getD : (sliceAxis x k 0 w).shape.getD e 0
            = x.shape.getD e 0 := by
          rw [sliceAxis_shape]
          exact getD_set_ne _ _ _ _ hke
        have hsum : (sliceAxis x k 0 w).shape.sum ≤ N := by
          rw [sliceAxis_shape]
          have := sum_set_lt x.shape k (min w (x.shape.getD k 0 - 0)) hkx
            (by omega)
          omega
        obtain ⟨b, hb, hbne⟩ := ih (sliceAxis x k 0 w) d w hsum hw hslice_len
          ⟨e, hed, by rw [hslice_getD]; exact hew,
            by rw [hslice_getD]; exact hendvd⟩
        exact ⟨b, List.mem_flatMap.mpr ⟨0, h0mem, hb⟩, hbne⟩
      · have hmod : x.shape.getD k 0 % w ≠ 0 :=
          fun h => hkdvd ((Nat.dvd_iff_mod_eq_zero).mpr h)
        have hmodlt : x.shape.getD k 0 % w < w := Nat.mod_lt _ hw
        have hi0 : w * (x.shape.getD k 0 / w) + x.shape.getD k 0 % w
            = x.shape.getD k 0 := Nat.div_add_mod _ _
        have hi0mem : w * (x.shape.getD k 0 / w)
            ∈ rangeStep (x.shape.getD k 0) w :=
          (mem_rangeStep_iff _ _ _ hw).mpr ⟨⟨_, rfl⟩, by omega⟩
        have hnenil := partitionGo_replicate_ne_nil
          ((sliceAxis x k (w * (x.shape.getD k 0 / w)) w).shape.sum)
          (sliceAxis x k (w * (x.shape.getD k 0 / w)) w) d w 0
          (le_refl _) hw
        obtain ⟨b, hb⟩ := List.exists_mem_of_ne_nil _ hnenil
        have hslice_k : (sliceAxis x k (w * (x.shape.getD k 0 / w)) w).shape.getD
            k 0 = x.shape.getD k 0 % w := by
          rw [sliceAxis_shape]
          rw [List.getD_eq_getElem _ _ (by rw [List.length_set]; exact hkx)]
          rw [List.getElem_set, if_pos rfl]
          omega
        have hkeep := partitionGo_keeps_small_axis
          ((sliceAxis x k (w * (x.shape.getD k 0 / w)) w).shape.sum)
          (sliceAxis x k (w * (x.shape.getD k 0 / w)) w) d w 0 k
          (le_refl _) (by rw [hslice_k]; omega) b hb
        refine ⟨b, List.mem_flatMap.mpr
          ⟨w * (x.shape.getD k 0 / w), hi0mem, hb⟩, ?_⟩
        intro hcontra
        rw [hcontra, hslice_k] at hkeep
        rw [List.getD_eq_getElem _ _ hks, List.getElem_replicate] at hkeep
        omega

/-- The `partition` wrapper guards pass for a conformable symmetric shape. -/
theorem partition_replicate_ok (x : NDArray) (d w : Nat) (s : Int)
    (hd0 : 0 < d) (hd : x.shape.length = d) :
    partition x (List.replicate d w) s
      = .ok (partitionGo x (List.replicate d w) s) := by
  unfold partition
  rw [if_neg (by rw [dedup_replicate w d hd0]; simp)]
  simp only [List.length_replicate]
  rw [show (if d ≠ x.shape.length then squeeze x else x) = x from
    if_neg (by omega)]
  rw [if_neg (by omega)]

/-- C6 (amended): for every array and symmetric block shape (conformable,
positive width), `partition` slices along the first axis whose extent
exceeds the block width, and the window start offsets along that axis are
exactly the multiples of the stride strictly below `end`, where `end` is
`axis_length - block_width + 1` for `shift > 0` (so offsets run up to
`axis_length - block_width` inclusive, not `axis_length - block_width + 1`)
and `axis_length` with stride equal to the block width for `shift ≤ 0`; for
`shift > 0` every window is full block width along the sliced axis; and with
`shift ≤ 0` leftover parts narrower than the block shape ARE yielded by
`partition` whenever some axis is longer than and not a multiple of the
width — only `partition_ignore` drops them.  The last two conjuncts fully
evaluate the 1-D case, exhibiting both regimes window by window. -/
theorem c6_partition_shift_amended :
    (∀ (x : NDArray) (d w : Nat) (s : Int), 0 < d → x.shape.length = d →
      ¬ ((x.shape.zip (List.replicate d w)).all
          (fun p => decide (p.1 ≤ p.2)) = true) →
      partition x (List.replicate d w) s
        = .ok ((rangeStep
              (if 0 < s then
                x.shape.getD (firstOversizedAxis x (List.replicate d w)) 0
                  - w + 1
               else x.shape.getD (firstOversizedAxis x (List.replicate d w)) 0)
              (if s ≤ 0 then w else s.toNat)).flatMap
            (fun i => partitionGo
              (sliceAxis x (firstOversizedAxis x (List.replicate d w)) i w)
              (List.replicate d w) s))) ∧
    (∀ (stop sh i : Nat), 0 < sh →
      (i ∈ rangeStep stop sh ↔ sh ∣ i ∧ i < stop)) ∧
    (∀ (x : NDArray) (d w i : Nat) (s : Int),
      w ≤ x.shape.getD (firstOversizedAxis x (List.replicate d w)) 0 →
      i ∈ rangeStep
        (x.shape.getD (firstOversizedAxis x (List.replicate d w)) 0 - w + 1)
        s.toNat →
      (sliceAxis x (firstOversizedAxis x (List.replicate d w)) i w).shape
        = x.shape.set (firstOversizedAxis x (List.replicate d w)) w) ∧
    (∀ (x : NDArray) (d w : Nat), 0 < w → 0 < d → x.shape.length = d →
      (∃ e, e < d ∧ w < x.shape.getD e 0 ∧ ¬ w ∣ x.shape.getD e 0) →
      ∃ blocks, partition x (List.replicate d w) 0 = .ok blocks ∧
        ∃ b ∈ blocks, b.shape ≠ List.replicate d w) ∧
    (∀ (a : List Nat) (w : Nat) (s : Int), 0 < w → w < a.length → 0 < s →
      partition ⟨[a.length], a⟩ [w] s
        = .ok ((rangeStep (a.length - w + 1) s.toNat).map
            (fun i => ⟨[w], (a.drop i).take w⟩))) ∧
    (∀ (a : List Nat) (w : Nat) (s : Int), 0 < w → w < a.length → s ≤ 0 →
      partition ⟨[a.length], a⟩ [w] s
        = .ok ((rangeStep a.length w).map
            (fun i => ⟨[min w (a.length - i)], (a.drop i).take w⟩))) := by
  refine ⟨?_, ?_, ?_, ?_, ?_, ?_⟩
  · intro x d w s hd0 hd hall
    rw [partition_replicate_ok x d w s hd0 hd]
    congr 1
    rw [partitionGo, dif_neg hall]
    simp only
    obtain ⟨⟨hkx, hks⟩, hover⟩ := findIdx_oversized x (List.replicate d w) hall
    have hstep : (List.replicate d w).getD
        ((x.shape.zip (List.replicate d w)).findIdx
          (fun p => decide (p.2 < p.1))) 0 = w := by
      rw [List.getD_eq_getElem _ _ hks, List.getElem_replicate]
    rw [hstep]
    rfl
  · exact mem_rangeStep_iff
  · intro x d w i s hwle hi
    have hlt := mem_rangeStep_lt _ _ _ hi
    rw [sliceAxis_shape]
    congr 1
    omega
  · intro x d w hw hd0 hd hbad
    exact ⟨_, partition_replicate_ok x d w 0 hd0 hd,
      partitionGo_leftover_yielded x.shape.sum x d w (le_refl _) hw hd hbad⟩
  · intro a w s hw hlt hs
    rw [partition_one_dim a w s hw hlt, if_pos hs, if_neg (by omega)]
    congr 1
    apply List.map_congr_left
    intro i hi
    have hstop := mem_rangeStep_lt _ _ _ hi
    have hmin : min w (a.length - i) = w := by omega
    rw [hmin]
  · intro a w s hw hlt hs
    rw [partition_one_dim a w s hw hlt, if_neg (by omega), if_pos hs]

/-- Witness for C6 (amended): the 2-D array of shape `(2, 3)` (second axis
oversized and not a multiple of the width 2) and the 1-D array
`[0, 1, 2, 3, 4]`, exercising all six conjuncts. -/
theorem c6_partition_shift_amended_witness :
    ((0 < 2 ∧ (⟨[2, 3], [0, 1, 2, 3, 4, 5]⟩ : NDArray).shape.length = 2 ∧
        ¬ ((((⟨[2, 3], [0, 1, 2, 3, 4, 5]⟩ : NDArray).shape.zip
            (List.replicate 2 2)).all (fun p => decide (p.1 ≤ p.2))) = true))
      ∧ partition ⟨[2, 3], [0, 1, 2, 3, 4, 5]⟩ (List.replicate 2 2) 1
        = .ok ((rangeStep
              (if (0 : Int) < 1 then
                (⟨[2, 3], [0, 1, 2, 3, 4, 5]⟩ : NDArray).shape.getD
                  (firstOversizedAxis ⟨[2, 3], [0, 1, 2, 3, 4, 5]⟩
                    (List.replicate 2 2)) 0 - 2 + 1
               else (⟨[2, 3], [0, 1, 2, 3, 4, 5]⟩ : NDArray).shape.getD
                  (firstOversizedAxis ⟨[2, 3], [0, 1, 2, 3, 4, 5]⟩
                    (List.replicate 2 2)) 0)
              (if (1 : Int) ≤ 0 then 2 else (1 : Int).toNat)).flatMap
            (fun i => partitionGo
              (sliceAxis ⟨[2, 3], [0, 1, 2, 3, 4, 5]⟩
                (firstOversizedAxis ⟨[2, 3], [0, 1, 2, 3, 4, 5]⟩
                  (List.replicate 2 2)) i 2)
              (List.replicate 2 2) 1))) ∧
    ((0 < 2) ∧ ((4 : Nat) ∈ rangeStep 5 2 ↔ 2 ∣ 4 ∧ 4 < 5)) ∧
    ((2 ≤ (⟨[2, 3], [0, 1, 2, 3, 4, 5]⟩ : NDArray).shape.getD
        (firstOversizedAxis ⟨[2, 3], [0, 1, 2, 3, 4, 5]⟩
          (List.replicate 2 2)) 0 ∧
      (0 : Nat) ∈ rangeStep
        ((⟨[2, 3], [0, 1, 2, 3, 4, 5]⟩ : NDArray).shape.getD
          (firstOversizedAxis ⟨[2, 3], [0, 1, 2, 3, 4, 5]⟩
            (List.replicate 2 2)) 0 - 2 + 1) (1 : Int).toNat)
      ∧ (sliceAxis ⟨[2, 3], [0, 1, 2, 3, 4, 5]⟩
          (firstOversizedAxis ⟨[2, 3], [0, 1, 2, 3, 4, 5]⟩
            (List.replicate 2 2)) 0 2).shape
        = (⟨[2, 3], [0, 1, 2, 3, 4, 5]⟩ : NDArray).shape.set
            (firstOversizedAxis ⟨[2, 3], [0, 1, 2, 3, 4, 5]⟩
              (List.replicate 2 2)) 2) ∧
    ((0 < 2 ∧ 0 < 2 ∧ (⟨[2, 3], [0, 1, 2, 3, 4, 5]⟩ : NDArray).shape.length = 2 ∧
        (∃ e, e < 2 ∧
          2 < (⟨[2, 3], [0, 1, 2, 3, 4, 5]⟩ : NDArray).shape.getD e 0 ∧
          ¬ 2 ∣ (⟨[2, 3], [0, 1, 2, 3, 4, 5]⟩ : NDArray).shape.getD e 0))
      ∧ ∃ blocks, partition ⟨[2, 3], [0, 1, 2, 3, 4, 5]⟩
            (List.replicate 2 2) 0 = .ok blocks ∧
          ∃ b ∈ blocks, b.shape ≠ List.replicate 2 2) ∧
    ((0 < 2 ∧ 2 < ([0, 1, 2, 3, 4] : List Nat).length ∧ (0 : Int) < 1)
      ∧ partition ⟨[([0, 1, 2, 3, 4] : List Nat).length], [0, 1, 2, 3, 4]⟩ [2] 1
        = .ok ((rangeStep (([0, 1, 2, 3, 4] : List Nat).length - 2 + 1)
              (1 : Int).toNat).map
            (fun i => ⟨[2], (([0, 1, 2, 3, 4] : List Nat).drop i).take 2⟩))) ∧
    ((0 < 2 ∧ 2 < ([0, 1, 2, 3, 4] : List Nat).length ∧ (0 : Int) ≤ 0)
      ∧ partition ⟨[([0, 1, 2, 3, 4] : List Nat).length], [0, 1, 2, 3, 4]⟩ [2] 0
        = .ok ((rangeStep ([0, 1, 2, 3, 4] : List Nat).length 2).map
            (fun i => ⟨[min 2 (([0, 1, 2, 3, 4] : List Nat).length - i)],
              (([0, 1, 2, 3, 4] : List Nat).drop i).take 2⟩))) :=
  ⟨⟨⟨by decide, by decide, by decide⟩,
      c6_partition_shift_amended.1 ⟨[2, 3], [0, 1, 2, 3, 4, 5]⟩ 2 2 1
        (by decide) (by decide) (by decide)⟩,
    ⟨⟨by decide, c6_partition_shift_amended.2.1 5 2 4 (by decide)⟩,
      ⟨⟨by decide, by decide⟩,
        c6_partition_shift_amended.2.2.1 ⟨[2, 3], [0, 1, 2, 3, 4, 5]⟩ 2 2 0 1
          (by decide) (by decide)⟩,
      ⟨⟨by decide, by decide, by decide, ⟨1, by decide, by decide, by decide⟩⟩,
        c6_partition_shift_amended.2.2.2.1 ⟨[2, 3], [0, 1, 2, 3, 4, 5]⟩ 2 2
          (by decide) (by decide) (by decide)
          ⟨1, by decide, by decide, by decide⟩⟩,
      ⟨⟨by decide, by decide, by decide⟩,
        c6_partition_shift_amended.2.2.2.2.1 [0, 1, 2, 3, 4] 2 1
          (by decide) (by decide) (by decide)⟩,
      ⟨⟨by decide, by decide, by decide⟩,
        c6_partition_shift_amended.2.2.2.2.2 [0, 1, 2, 3, 4] 2 0
          (by decide) (by decide) (by decide)⟩⟩⟩
